import Mathlib

/-!
Verification development for the task-workflow repository.

The repository has two parts:

1. A task scheduling core (`TaskNode`, `TaskScheduler`, `DynamicTaskManager`
   in `lib/task_scheduler`), documented in `SKILL.md` and the design spec.
   Its implementation file is not present in the repository snapshot, so the
   definitions in the `Sched` namespace are modelled from the spec.

2. A JS task archive manager (`lib/task-index-manager.js`) plus thin CLI
   wrappers.  The definitions in the `Idx` namespace are a shallow embedding
   of that file; filesystem writes and wall-clock timestamps are I/O and are
   represented by explicit parameters or omitted where no claim depends on
   them.
-/

namespace Sched

/-- Modelled from the spec: a Task Record (`TaskNode` of `lib/task_scheduler`,
not present under `src/`); fields per spec section 3 and SKILL.md. -/
structure TaskNode where
  id : String
  name : String := ""
  description : String := ""
  depends_on : List String := []
  estimated_time : String := "medium"
  tool_calls_estimate : Nat := 0
  decision_points : Nat := 0
deriving DecidableEq, Repr

/-- Modelled from the spec: the error taxonomy of spec section 7 for the
scheduling core (its implementation is not present under `src/`). -/
inductive SchedError where
  | duplicateId (id : String)
  | unknownDependency (id : String)
  | circularDependency (id : String)
  | invalidConfiguration (msg : String)
  | invalidStateTransition (id : String)
deriving DecidableEq, Repr

/-- Modelled from the spec: `time_score`: short→1, medium→3, long→5;
an unrecognized value is an input error (`none`), not a silent default. -/
def timeScore : String → Option ℚ
  | "short" => some 1
  | "medium" => some 3
  | "long" => some 5
  | _ => none

/-- Modelled from the spec: `tool_score = min(tool_calls_estimate / 5, 3)`. -/
def toolScore (toolCalls : Nat) : ℚ := min ((toolCalls : ℚ) / 5) 3

/-- Modelled from the spec: `decision_score = decision_points * 2`. -/
def decisionScore (decisionPoints : Nat) : ℚ := (decisionPoints : ℚ) * 2

/-- Modelled from the spec: `calculate_complexity` of `TaskNode` (not present
under `src/`): `score = time_score + tool_score + decision_score`, with an
unrecognized `estimated_time` an input error.  The documented formula carries
no clamp, so the raw sum is returned. -/
def calculate_complexity (t : TaskNode) : Option ℚ :=
  (timeScore t.estimated_time).map
    (fun ts => ts + toolScore t.tool_calls_estimate + decisionScore t.decision_points)

/-- The ids of a task list. -/
def idsOf (tasks : List TaskNode) : List String := tasks.map (·.id)

/-- `b` is a direct dependency of the task named `a` in `tasks`. -/
def depStepB (tasks : List TaskNode) (a b : String) : Bool :=
  tasks.any (fun t => t.id = a && t.depends_on.contains b)

/-- `c` is a nonempty cycle of the dependency relation of `tasks`: consecutive
elements are dependency steps and the last element steps back to the first. -/
def IsDepCycle (tasks : List TaskNode) (c : List String) : Prop :=
  c ≠ [] ∧ List.Chain' (fun a b => depStepB tasks a b = true) c ∧
    depStepB tasks (c.getLastD "") (c.headD "") = true

/-- The dependency relation of `tasks` contains a cycle. -/
def HasCycle (tasks : List TaskNode) : Prop := ∃ c, IsDepCycle tasks c

/-- The id `a` lies on some dependency cycle of `tasks`. -/
def OnCycle (tasks : List TaskNode) (a : String) : Prop :=
  ∃ c, IsDepCycle tasks c ∧ a ∈ c

/-- Every `depends_on` entry of every task names an id present in the set. -/
def depsKnownB (tasks : List TaskNode) : Bool :=
  tasks.all (fun t => t.depends_on.all (fun d => (idsOf tasks).contains d))

/-- First duplicated element of a list, if any. -/
def firstDup : List String → Option String
  | [] => none
  | x :: xs => if xs.contains x then some x else firstDup xs

/-- First `depends_on` entry that names no task in the set, if any. -/
def firstUnknown (tasks : List TaskNode) : Option String :=
  tasks.findSome? (fun t => t.depends_on.find? (fun d => !((idsOf tasks).contains d)))

/-- A task is ready relative to a list of satisfied ids when every dependency
is among them. -/
def isReadyB (done : List String) (t : TaskNode) : Bool :=
  t.depends_on.all (fun d => done.contains d)

/-- Modelled from the spec: tier computation of the Dependency Graph (code not
under `src/`).  Repeatedly peel off the tasks whose dependencies are all
already placed; each round is one tier (topological depth).  `fuel` bounds the
iteration; tasks left over when no task is ready are on or behind a cycle (or
have unresolved dependencies). -/
def layersGo : Nat → List TaskNode → List String → List (List TaskNode) →
    List (List TaskNode) × List TaskNode
  | 0, remaining, _, acc => (acc, remaining)
  | fuel + 1, remaining, done, acc =>
    let ready := remaining.filter (isReadyB done)
    if ready.isEmpty then (acc, remaining)
    else layersGo fuel (remaining.filter (fun t => !(isReadyB done t)))
      (done ++ idsOf ready) (acc ++ [ready])

/-- The tiers of a task set together with the unplaceable leftover. -/
def computeLayers (tasks : List TaskNode) : List (List TaskNode) × List TaskNode :=
  layersGo tasks.length tasks [] []

/-- Layer lists in which every task's dependencies are ids of strictly
earlier layers (the defining property of the tier decomposition). -/
def GoodLayers (ls : List (List TaskNode)) : Prop :=
  ∀ p L s, ls = p ++ L :: s → ∀ t ∈ L, ∀ d ∈ t.depends_on, d ∈ idsOf p.flatten

/-- The index of the first layer containing a task with the given id. -/
def rankOf (ls : List (List TaskNode)) (a : String) : Nat :=
  ls.findIdx (fun L => L.any (fun t => t.id = a))

/-- One dependency step inside the leftover set: from the task named `a`,
the first dependency that is itself still in the leftover. -/
def stepDep (leftover : List TaskNode) (a : String) : Option String :=
  match leftover.find? (fun t => t.id = a) with
  | some t => t.depends_on.find? (fun d => (idsOf leftover).contains d)
  | none => none

/-- Walk dependency steps inside the leftover until a node repeats; that node
lies on a dependency cycle. -/
def findCycleGo (leftover : List TaskNode) : Nat → String → List String → String
  | 0, cur, _ => cur
  | fuel + 1, cur, visited =>
    if visited.contains cur then cur
    else
      match stepDep leftover cur with
      | some nxt => findCycleGo leftover fuel nxt (visited ++ [cur])
      | none => cur

/-- A node on a dependency cycle among the leftover tasks. -/
def findCycleNode (leftover : List TaskNode) : String :=
  match leftover with
  | [] => ""
  | t :: _ => findCycleGo leftover (leftover.length + 1) t.id []

/-- Modelled from the spec: `validate()` of the Dependency Graph (code not
under `src/`): duplicate ids fail with `DuplicateIdError`, a `depends_on`
entry naming no task fails with `UnknownDependencyError`, and a cycle fails
with `CircularDependencyError` naming a task on the cycle. -/
def validate (tasks : List TaskNode) : Except SchedError Unit :=
  match firstDup (idsOf tasks) with
  | some d => .error (.duplicateId d)
  | none =>
    match firstUnknown tasks with
    | some d => .error (.unknownDependency d)
    | none =>
      let lo := (computeLayers tasks).2
      if lo.isEmpty then .ok () else .error (.circularDependency (findCycleNode lo))

/-- Complexity score with a default for the (guarded-against) unrecognized
case, used only as a sort key after `plan` has checked all times. -/
def scoreD (t : TaskNode) : ℚ := (calculate_complexity t).getD 0

/-- Within-tier order: ascending complexity score, ties broken by id. -/
def tierLE (t u : TaskNode) : Bool :=
  scoreD t < scoreD u || (scoreD t = scoreD u && t.id ≤ u.id)

/-- Insert into a sorted list (insertion sort step). -/
def insertSorted (le : TaskNode → TaskNode → Bool) (x : TaskNode) :
    List TaskNode → List TaskNode
  | [] => [x]
  | y :: ys => if le x y then x :: y :: ys else y :: insertSorted le x ys

/-- Insertion sort by the given order. -/
def sortByLE (le : TaskNode → TaskNode → Bool) : List TaskNode → List TaskNode
  | [] => []
  | x :: xs => insertSorted le x (sortByLE le xs)

/-- Sort one tier ascending by complexity score, ties by id. -/
def sortTier (l : List TaskNode) : List TaskNode := sortByLE tierLE l

/-- Split a list into consecutive chunks of at most `k` elements (`k ≥ 1`);
the fuel argument (an upper bound on the length) makes the recursion
structural. -/
def chunkGo (k : Nat) : Nat → List TaskNode → List (List TaskNode)
  | _, [] => []
  | 0, l => [l]
  | fuel + 1, x :: xs => (x :: xs.take (k - 1)) :: chunkGo k fuel (xs.drop (k - 1))

/-- Split a list into consecutive chunks of at most `k` elements (`k ≥ 1`). -/
def chunkList (k : Nat) (l : List TaskNode) : List (List TaskNode) :=
  chunkGo k l.length l

/-- Modelled from the spec: `plan(tasks, max_batch_size)` of the Batch Planner
(code not under `src/`): reject a non-positive `max_batch_size` with
`InvalidConfigurationError`, validate the set, reject an unrecognized
`estimated_time` with `InvalidConfigurationError`, then sort each tier by
complexity (ties by id) and split each tier into consecutive batches of at
most `max_batch_size`, tiers in increasing order and never mixed in a batch. -/
def plan (tasks : List TaskNode) (max_batch_size : Nat) :
    Except SchedError (List (List TaskNode)) :=
  if max_batch_size < 1 then .error (.invalidConfiguration "max_batch_size") else
  match validate tasks with
  | .error e => .error e
  | .ok _ =>
    if tasks.any (fun t => (timeScore t.estimated_time).isNone) then
      .error (.invalidConfiguration "estimated_time")
    else
      .ok (((computeLayers tasks).1.map (fun l => chunkList max_batch_size (sortTier l))).flatten)

/-- Modelled from the spec: per-task lifecycle state of the Dynamic Task
Manager (code not under `src/`). -/
inductive TState where
  | pending
  | running
  | completed
deriving DecidableEq, Repr

/-- A managed task: a task record plus its lifecycle state. -/
structure MTask where
  node : TaskNode
  state : TState
deriving DecidableEq, Repr

/-- Modelled from the spec: the Dynamic Task Manager's state (code not under
`src/`): one graph's task records with per-task state, plus the configured
`max_batch_size`. -/
structure Manager where
  tasks : List MTask
  max_batch_size : Nat := 10
deriving DecidableEq, Repr

/-- A managed task is ready when every dependency is COMPLETED. -/
def is_ready (m : Manager) (t : MTask) : Bool :=
  t.node.depends_on.all (fun d =>
    m.tasks.any (fun u => u.node.id = d && u.state == TState.completed))

/-- Modelled from the spec: `initialize(tasks)` of the Dynamic Task Manager
(code not under `src/`): validate exactly as the Dependency Graph does; on
success all tasks start PENDING. -/
def initManager (max_batch_size : Nat) (tasks : List TaskNode) :
    Except SchedError Manager :=
  match validate tasks with
  | .error e => .error e
  | .ok _ => .ok { tasks := tasks.map (fun t => ⟨t, .pending⟩), max_batch_size }

/-- Modelled from the spec: `get_next_batch()` (code not under `src/`):
the currently PENDING and ready tasks (RUNNING tasks never reappear), ordered
by ascending complexity with ties by id, capped at `max_batch_size`; a pure
read, so the manager is returned unchanged. -/
def get_next_batch (m : Manager) : List TaskNode × Manager :=
  (((sortTier ((m.tasks.filter
      (fun t => t.state == TState.pending && is_ready m t)).map (·.node))).take
    m.max_batch_size), m)

/-- Set the state of the first managed task with the given id. -/
def setStateFirst (st : TState) (id : String) : List MTask → List MTask
  | [] => []
  | t :: ts =>
    if t.node.id = id then { t with state := st } :: ts
    else t :: setStateFirst st id ts

/-- Modelled from the spec: `mark_running(id)` (code not under `src/`):
PENDING→RUNNING, only for a currently ready task; anything else fails with
`InvalidStateTransitionError` and leaves the state unchanged. -/
def mark_running (m : Manager) (id : String) : Except SchedError Unit × Manager :=
  match m.tasks.find? (fun t => t.node.id = id) with
  | none => (.error (.invalidStateTransition id), m)
  | some t =>
    if t.state = TState.pending && is_ready m t then
      (.ok (), { m with tasks := setStateFirst .running id m.tasks })
    else (.error (.invalidStateTransition id), m)

/-- Modelled from the spec: `mark_completed(id)` (code not under `src/`):
RUNNING→COMPLETED; anything else fails with `InvalidStateTransitionError`
and leaves the state unchanged. -/
def mark_completed (m : Manager) (id : String) : Except SchedError Unit × Manager :=
  match m.tasks.find? (fun t => t.node.id = id) with
  | none => (.error (.invalidStateTransition id), m)
  | some t =>
    if t.state = TState.running then
      (.ok (), { m with tasks := setStateFirst .completed id m.tasks })
    else (.error (.invalidStateTransition id), m)

/-- Modelled from the spec: `insert_task(task)` (code not under `src/`):
a duplicate id returns `false` (not an error) with the state unchanged; a
missing dependency or a cycle created by the insertion raises the
corresponding error, aborting atomically; otherwise the task is added as
PENDING and `true` is returned. -/
def insert_task (m : Manager) (t : TaskNode) : Except SchedError Bool × Manager :=
  if m.tasks.any (fun u => u.node.id = t.id) then (.ok false, m)
  else
    match validate (m.tasks.map (·.node) ++ [t]) with
    | .error e => (.error e, m)
    | .ok _ => (.ok true, { m with tasks := m.tasks ++ [⟨t, .pending⟩] })

end Sched

namespace Idx

/-- One task record of `lib/task-index-manager.js`.  Wall-clock fields
(`createdAt`, `updatedAt`) and filesystem paths are I/O concerns; the
archive timestamp is kept because `archiveTask` writes it into the record. -/
structure JTask where
  id : Nat
  name : String
  filename : String := ""
  description : String := ""
  status : String
  priority : String
  archivedAt : Option String := none
deriving DecidableEq, Repr

/-- The persisted index state of `TaskIndexManager` (`this.index`). -/
structure TaskIndex where
  lastTaskId : Nat
  activeTasks : List JTask
  archivedTasks : List JTask
deriving DecidableEq, Repr

/-- `loadIndex` when no index file exists: a fresh index. -/
def freshIndex : TaskIndex :=
  { lastTaskId := 0, activeTasks := [], archivedTasks := [] }

/-- Pad a task number to three digits (`String(taskId).padStart(3, '0')`). -/
def pad3 (n : Nat) : String :=
  let s := toString n
  String.mk (List.replicate (3 - s.length) '0') ++ s

/-- `createTask`: assign `lastTaskId + 1` as the id, bump `lastTaskId`,
push a fresh `pending` task onto `activeTasks`.  The rendered markdown file
is I/O and not modelled. -/
def createTask (idx : TaskIndex) (name priority : String) : JTask × TaskIndex :=
  let taskId := idx.lastTaskId + 1
  let task : JTask :=
    { id := taskId
      name := name
      filename := "task_" ++ pad3 taskId ++ "_" ++ name ++ ".md"
      status := "pending"
      priority := priority }
  (task, { idx with lastTaskId := taskId, activeTasks := idx.activeTasks ++ [task] })

/-- `getActiveTasks`: active tasks whose status is not `completed`. -/
def getActiveTasks (idx : TaskIndex) : List JTask :=
  idx.activeTasks.filter (fun t => !(t.status == "completed"))

/-- `getTask`: first active task with the given id. -/
def getTask (idx : TaskIndex) (taskId : Nat) : Option JTask :=
  idx.activeTasks.find? (fun t => t.id = taskId)

/-- Set the status of the first task with the given id (the JS code mutates
the object returned by `find`, i.e. the first match). -/
def setStatusFirst (status : String) (taskId : Nat) : List JTask → List JTask
  | [] => []
  | t :: ts =>
    if t.id = taskId then { t with status := status } :: ts
    else t :: setStatusFirst status taskId ts

/-- `updateTaskStatus`: throws `Task not found` before any mutation if the id
is not active; otherwise overwrites the task's status with the given string
(no transition check) and saves. -/
def updateTaskStatus (idx : TaskIndex) (taskId : Nat) (status : String) :
    Except String JTask × TaskIndex :=
  match getTask idx taskId with
  | none => (.error ("Task " ++ toString taskId ++ " not found"), idx)
  | some t =>
    (.ok { t with status := status },
      { idx with activeTasks := setStatusFirst status taskId idx.activeTasks })

/-- `archiveTask`: find the active task by id (throwing before any mutation if
missing or not `completed`), stamp it as archived, splice it out of
`activeTasks` and push it onto `archivedTasks`.  The file rename is I/O; the
timestamp is the `now` parameter. -/
def dfltTask : JTask := { id := 0, name := "", status := "", priority := "" }

def archiveTask (idx : TaskIndex) (taskId : Nat) (now : String) :
    Except String JTask × TaskIndex :=
  match idx.activeTasks.findIdx? (fun t => t.id = taskId) with
  | none => (.error ("Task " ++ toString taskId ++ " not found"), idx)
  | some i =>
    if (idx.activeTasks.getD i dfltTask).status ≠ "completed" then
      (.error ("Task " ++ toString taskId ++ " is not completed"), idx)
    else
      (.ok { idx.activeTasks.getD i dfltTask with archivedAt := some now },
        { idx with
          activeTasks := idx.activeTasks.eraseIdx i
          archivedTasks :=
            idx.archivedTasks ++ [{ idx.activeTasks.getD i dfltTask with archivedAt := some now }] })

/-- The summary block of `generateReport`. -/
structure ReportSummary where
  totalActive : Nat
  pending : Nat
  inProgress : Nat
  completed : Nat
deriving DecidableEq, Repr

/-- The value returned by `generateReport`. -/
structure Report where
  summary : ReportSummary
  pendingTasks : List JTask
  inProgressTasks : List JTask
  recentArchived : List JTask
deriving DecidableEq, Repr

/-- `generateReport`: counts over the non-completed active tasks and the
archived list; `recentArchived` is the last five archived tasks. -/
def generateReport (idx : TaskIndex) : Report :=
  let active := getActiveTasks idx
  let pending := active.filter (fun t => t.status == "pending")
  let inProgress := active.filter (fun t => t.status == "in_progress")
  { summary :=
      { totalActive := active.length
        pending := pending.length
        inProgress := inProgress.length
        completed := idx.archivedTasks.length }
    pendingTasks := pending
    inProgressTasks := inProgress
    recentArchived := idx.archivedTasks.drop (idx.archivedTasks.length - 5) }

/-- All task ids tracked by the index, active and archived. -/
def allIds (idx : TaskIndex) : List Nat :=
  (idx.activeTasks ++ idx.archivedTasks).map (·.id)

/-- Run a sequence of `createTask` calls (name, priority pairs). -/
def runCreates (idx : TaskIndex) (specs : List (String × String)) : TaskIndex :=
  specs.foldl (fun i s => (createTask i s.1 s.2).2) idx

end Idx

namespace Sched

theorem timeScore_bounds {s : String} {v : ℚ} (hv : timeScore s = some v) :
    1 ≤ v ∧ v ≤ 5 := by
  unfold timeScore at hv
  split at hv <;> simp_all <;> norm_num [← hv]

theorem toolScore_bounds (n : Nat) : 0 ≤ toolScore n ∧ toolScore n ≤ 3 := by
  unfold toolScore
  constructor
  · apply le_min
    · positivity
    · norm_num
  · exact min_le_right _ _

/-- C4 counterexample: the documented formula is uncapped, so a task with
`estimated_time = long` and three decision points scores 11, outside the
claimed interval [1, 10]. -/
theorem complexity_score_range_counterexample :
    calculate_complexity
      { id := "t", estimated_time := "long", tool_calls_estimate := 0,
        decision_points := 3 } = some 11 ∧ ¬ ((11 : ℚ) ≤ 10) := by
  constructor
  · norm_num [calculate_complexity, timeScore, toolScore, decisionScore]
  · norm_num

/-- C4 (amended): the complexity scorer is a pure function returning exactly
`time_score + tool_score + decision_score`; for every task with a recognized
`estimated_time`, the result is at least 1, and it additionally stays at most
10 whenever `decision_points ≤ 1` (the uncapped decision contribution can
exceed 10 otherwise). -/
theorem complexity_score_formula_and_range (t : TaskNode) (v : ℚ)
    (hv : timeScore t.estimated_time = some v) :
    calculate_complexity t =
      some (v + toolScore t.tool_calls_estimate + decisionScore t.decision_points) ∧
    (∀ q, calculate_complexity t = some q → 1 ≤ q) ∧
    (t.decision_points ≤ 1 → ∀ q, calculate_complexity t = some q → q ≤ 10) := by
  have hform : calculate_complexity t =
      some (v + toolScore t.tool_calls_estimate + decisionScore t.decision_points) := by
    simp [calculate_complexity, hv]
  obtain ⟨hv1, hv5⟩ := timeScore_bounds hv
  obtain ⟨ht0, ht3⟩ := toolScore_bounds t.tool_calls_estimate
  have hd0 : 0 ≤ decisionScore t.decision_points := by
    unfold decisionScore; positivity
  refine ⟨hform, fun q hq => ?_, fun hd q hq => ?_⟩
  · rw [hform] at hq
    cases hq
    linarith
  · rw [hform] at hq
    have hd2 : decisionScore t.decision_points ≤ 2 := by
      unfold decisionScore
      have : (t.decision_points : ℚ) ≤ 1 := by exact_mod_cast hd
      linarith
    cases hq
    linarith

theorem complexity_score_formula_and_range_witness :
    (calculate_complexity
        { id := "b", estimated_time := "short", tool_calls_estimate := 4,
          decision_points := 1 } = some ((1 : ℚ) + toolScore 4 + decisionScore 1) ∧
      (∀ q, calculate_complexity
        { id := "b", estimated_time := "short", tool_calls_estimate := 4,
          decision_points := 1 } = some q → 1 ≤ q) ∧
      ((1 : Nat) ≤ 1 → ∀ q, calculate_complexity
        { id := "b", estimated_time := "short", tool_calls_estimate := 4,
          decision_points := 1 } = some q → q ≤ 10)) ∧
    (∀ q, calculate_complexity
        { id := "t", estimated_time := "long", tool_calls_estimate := 0,
          decision_points := 3 } = some q → 1 ≤ q) :=
  ⟨complexity_score_formula_and_range
      { id := "b", estimated_time := "short", tool_calls_estimate := 4,
        decision_points := 1 } 1 (by rfl),
    (complexity_score_formula_and_range
      { id := "t", estimated_time := "long", tool_calls_estimate := 0,
        decision_points := 3 } 5 (by rfl)).2.1⟩

/-- C6: inserting a task whose id already exists returns `false` without
raising, and the manager state after the call equals the state before it. -/
theorem insert_duplicate_returns_false (m : Manager) (t : TaskNode)
    (h : t.id ∈ m.tasks.map (·.node.id)) :
    insert_task m t = (.ok false, m) := by
  unfold insert_task
  have : m.tasks.any (fun u => u.node.id = t.id) = true := by
    rw [List.any_eq_true]
    obtain ⟨u, hu, hid⟩ := List.mem_map.mp h
    exact ⟨u, hu, by simp [hid]⟩
  simp [this]

theorem insert_duplicate_returns_false_witness :
    insert_task { tasks := [⟨{ id := "a" }, .pending⟩], max_batch_size := 10 }
        { id := "a" } =
      (.ok false, { tasks := [⟨{ id := "a" }, .pending⟩], max_batch_size := 10 }) :=
  insert_duplicate_returns_false
    { tasks := [⟨{ id := "a" }, .pending⟩], max_batch_size := 10 }
    { id := "a" } (by simp)

/-- C7: `get_next_batch` does not mutate the manager, so calling it twice with
no intervening `mark_running`/`mark_completed`/`insert_task` returns the
identical batch both times. -/
theorem get_next_batch_idempotent (m : Manager) :
    (get_next_batch m).2 = m ∧
      (get_next_batch ((get_next_batch m).2)).1 = (get_next_batch m).1 :=
  ⟨rfl, rfl⟩

end Sched

namespace Sched

/-- C3: lifecycle transitions only move forward.  `mark_running` succeeds
exactly on a currently ready PENDING task and sets that task RUNNING;
`mark_completed` succeeds exactly on a RUNNING task and sets it COMPLETED;
every other request fails with `InvalidStateTransitionError` and leaves the
manager unchanged. -/
theorem state_transitions_only_forward (m : Manager) (id : String) :
    ((mark_running m id).1 = .ok () →
      (∃ t ∈ m.tasks, t.node.id = id ∧ t.state = .pending ∧ is_ready m t = true) ∧
        (mark_running m id).2 = { m with tasks := setStateFirst .running id m.tasks }) ∧
    (∀ e, (mark_running m id).1 = .error e →
      e = .invalidStateTransition id ∧ (mark_running m id).2 = m) ∧
    ((mark_completed m id).1 = .ok () →
      (∃ t ∈ m.tasks, t.node.id = id ∧ t.state = .running) ∧
        (mark_completed m id).2 = { m with tasks := setStateFirst .completed id m.tasks }) ∧
    (∀ e, (mark_completed m id).1 = .error e →
      e = .invalidStateTransition id ∧ (mark_completed m id).2 = m) := by
  have hrun : ((mark_running m id).1 = .ok () →
      (∃ t ∈ m.tasks, t.node.id = id ∧ t.state = .pending ∧ is_ready m t = true) ∧
        (mark_running m id).2 = { m with tasks := setStateFirst .running id m.tasks }) ∧
      (∀ e, (mark_running m id).1 = .error e →
        e = .invalidStateTransition id ∧ (mark_running m id).2 = m) := by
    cases hfind : m.tasks.find? (fun t => t.node.id = id) with
    | none =>
      simp only [mark_running, hfind]
      refine ⟨fun h => by simp_all, fun e h => ⟨by simp_all, by trivial⟩⟩
    | some t =>
      have hmem := List.mem_of_find?_eq_some hfind
      have hid : t.node.id = id := by simpa using List.find?_some hfind
      simp only [mark_running, hfind]
      by_cases hc : (decide (t.state = TState.pending) && is_ready m t) = true
      · rw [if_pos hc]
        have hc' : t.state = TState.pending ∧ is_ready m t = true := by simpa using hc
        refine ⟨fun _ => ⟨⟨t, hmem, hid, hc'.1, hc'.2⟩, rfl⟩, fun e h => by cases h⟩
      · rw [if_neg hc]
        constructor
        · intro h
          cases h
        · intro e h
          have he : SchedError.invalidStateTransition id = e := by simpa using h
          exact ⟨he.symm, rfl⟩
  have hcomp : ((mark_completed m id).1 = .ok () →
      (∃ t ∈ m.tasks, t.node.id = id ∧ t.state = .running) ∧
        (mark_completed m id).2 = { m with tasks := setStateFirst .completed id m.tasks }) ∧
      (∀ e, (mark_completed m id).1 = .error e →
        e = .invalidStateTransition id ∧ (mark_completed m id).2 = m) := by
    cases hfind : m.tasks.find? (fun t => t.node.id = id) with
    | none =>
      simp only [mark_completed, hfind]
      refine ⟨fun h => by simp_all, fun e h => ⟨by simp_all, by trivial⟩⟩
    | some t =>
      have hmem := List.mem_of_find?_eq_some hfind
      have hid : t.node.id = id := by simpa using List.find?_some hfind
      simp only [mark_completed, hfind]
      by_cases hc : t.state = TState.running
      · rw [if_pos hc]
        refine ⟨fun _ => ⟨⟨t, hmem, hid, hc⟩, rfl⟩, fun e h => by cases h⟩
      · rw [if_neg hc]
        constructor
        · intro h
          cases h
        · intro e h
          have he : SchedError.invalidStateTransition id = e := by simpa using h
          exact ⟨he.symm, rfl⟩
  exact ⟨hrun.1, hrun.2, hcomp.1, hcomp.2⟩

theorem state_transitions_only_forward_witness :
    ((.invalidStateTransition "a" : SchedError) = .invalidStateTransition "a" ∧
      (mark_completed { tasks := [⟨{ id := "a" }, .pending⟩] } "a").2 =
        { tasks := [⟨{ id := "a" }, .pending⟩] }) ∧
    ((∃ t ∈ ({ tasks := [⟨{ id := "a" }, .pending⟩] } : Manager).tasks,
        t.node.id = "a" ∧ t.state = .pending ∧
          is_ready { tasks := [⟨{ id := "a" }, .pending⟩] } t = true) ∧
      (mark_running { tasks := [⟨{ id := "a" }, .pending⟩] } "a").2 =
        { tasks := setStateFirst .running "a"
            ({ tasks := [⟨{ id := "a" }, .pending⟩] } : Manager).tasks }) :=
  ⟨(state_transitions_only_forward { tasks := [⟨{ id := "a" }, .pending⟩] } "a").2.2.2
      (.invalidStateTransition "a") (by rfl),
    (state_transitions_only_forward { tasks := [⟨{ id := "a" }, .pending⟩] } "a").1
      (by rfl)⟩

end Sched

/-- C5: every structural or validation failure aborts atomically: the managed
state after the failed call equals the state before it, for `insert_task`,
`mark_running`, `mark_completed` of the scheduler and for `updateTaskStatus`
(task not found) and `archiveTask` (task not found / wrong status) of the
index manager. -/
theorem failing_operations_are_atomic :
    (∀ (m : Sched.Manager) (t : Sched.TaskNode) (e : Sched.SchedError),
      (Sched.insert_task m t).1 = .error e → (Sched.insert_task m t).2 = m) ∧
    (∀ (m : Sched.Manager) (id : String) (e : Sched.SchedError),
      (Sched.mark_running m id).1 = .error e → (Sched.mark_running m id).2 = m) ∧
    (∀ (m : Sched.Manager) (id : String) (e : Sched.SchedError),
      (Sched.mark_completed m id).1 = .error e → (Sched.mark_completed m id).2 = m) ∧
    (∀ (idx : Idx.TaskIndex) (taskId : Nat) (status : String) (e : String),
      (Idx.updateTaskStatus idx taskId status).1 = .error e →
        (Idx.updateTaskStatus idx taskId status).2 = idx) ∧
    (∀ (idx : Idx.TaskIndex) (taskId : Nat) (now : String) (e : String),
      (Idx.archiveTask idx taskId now).1 = .error e →
        (Idx.archiveTask idx taskId now).2 = idx) := by
  refine ⟨?_, ?_, ?_, ?_, ?_⟩
  · intro m t e h
    unfold Sched.insert_task at h ⊢
    by_cases hdup : (m.tasks.any fun u => decide (u.node.id = t.id)) = true
    · rw [if_pos hdup] at h
      simp at h
    · rw [if_neg hdup] at h ⊢
      cases hval : Sched.validate (List.map (fun x => x.node) m.tasks ++ [t]) with
      | error e2 =>
        rfl
      | ok u =>
        rw [hval] at h
        simp at h
  · intro m id e h
    exact ((Sched.state_transitions_only_forward m id).2.1 e h).2
  · intro m id e h
    exact ((Sched.state_transitions_only_forward m id).2.2.2 e h).2
  · intro idx taskId status e h
    unfold Idx.updateTaskStatus at h ⊢
    split at h
    · simp_all
    · simp at h
  · intro idx taskId now e h
    unfold Idx.archiveTask at h ⊢
    split at h
    · simp_all
    · split at h
      · simp_all
      · simp at h

theorem failing_operations_are_atomic_witness :
    (Sched.mark_completed { tasks := [⟨{ id := "a" }, .pending⟩] } "a").2 =
      { tasks := [⟨{ id := "a" }, .pending⟩] } ∧
    (Idx.archiveTask
        { lastTaskId := 1,
          activeTasks := [{ id := 1, name := "a", status := "pending", priority := "medium" }],
          archivedTasks := [] } 1 "now").2 =
      { lastTaskId := 1,
        activeTasks := [{ id := 1, name := "a", status := "pending", priority := "medium" }],
        archivedTasks := [] } :=
  ⟨failing_operations_are_atomic.2.2.1 { tasks := [⟨{ id := "a" }, .pending⟩] } "a"
      (.invalidStateTransition "a") (by rfl),
    failing_operations_are_atomic.2.2.2.2
      { lastTaskId := 1,
        activeTasks := [{ id := 1, name := "a", status := "pending", priority := "medium" }],
        archivedTasks := [] } 1 "now" "Task 1 is not completed" (by rfl)⟩

namespace Idx

theorem append_singleton_append_perm (l1 l2 : List JTask) (x : JTask) :
    List.Perm ((l1 ++ [x]) ++ l2) (x :: (l1 ++ l2)) := by
  rw [List.append_assoc, List.singleton_append]
  exact List.perm_middle

theorem allIds_createTask_perm (idx : TaskIndex) (n p : String) :
    List.Perm (allIds (createTask idx n p).2) ((idx.lastTaskId + 1) :: allIds idx) := by
  unfold allIds createTask
  exact (append_singleton_append_perm idx.activeTasks idx.archivedTasks _).map (·.id)

theorem createTask_preserves_inv (idx : TaskIndex) (n p : String)
    (h1 : (allIds idx).Nodup) (h2 : ∀ i ∈ allIds idx, i ≤ idx.lastTaskId) :
    (allIds (createTask idx n p).2).Nodup ∧
      ∀ i ∈ allIds (createTask idx n p).2, i ≤ (createTask idx n p).2.lastTaskId := by
  have hperm := allIds_createTask_perm idx n p
  have hlast : (createTask idx n p).2.lastTaskId = idx.lastTaskId + 1 := rfl
  constructor
  · apply hperm.symm.nodup
    rw [List.nodup_cons]
    refine ⟨fun hmem => ?_, h1⟩
    have := h2 _ hmem
    omega
  · intro i hi
    rw [hperm.mem_iff, List.mem_cons] at hi
    rw [hlast]
    rcases hi with hi | hi
    · omega
    · have := h2 _ hi
      omega

theorem runCreates_inv (specs : List (String × String)) :
    ∀ idx : TaskIndex, (allIds idx).Nodup → (∀ i ∈ allIds idx, i ≤ idx.lastTaskId) →
      (allIds (runCreates idx specs)).Nodup ∧
        ∀ i ∈ allIds (runCreates idx specs), i ≤ (runCreates idx specs).lastTaskId := by
  induction specs with
  | nil => intro idx h1 h2; exact ⟨h1, h2⟩
  | cons s rest ih =>
    intro idx h1 h2
    have hstep := createTask_preserves_inv idx s.1 s.2 h1 h2
    exact ih _ hstep.1 hstep.2

/-- C8: ids assigned by `createTask` are unique and strictly increasing:
each call assigns `lastTaskId + 1` and bumps `lastTaskId`; consequently after
any sequence of `createTask` calls from a fresh index, all ids across
`activeTasks` and `archivedTasks` are pairwise distinct and bounded by
`lastTaskId`. -/
theorem create_task_ids_unique_increasing :
    (∀ (idx : TaskIndex) (name priority : String),
      (createTask idx name priority).1.id = idx.lastTaskId + 1 ∧
        (createTask idx name priority).2.lastTaskId = idx.lastTaskId + 1) ∧
    (∀ specs : List (String × String),
      (allIds (runCreates freshIndex specs)).Nodup ∧
        ∀ i ∈ allIds (runCreates freshIndex specs),
          i ≤ (runCreates freshIndex specs).lastTaskId) := by
  constructor
  · intro idx n p
    exact ⟨rfl, rfl⟩
  · intro specs
    exact runCreates_inv specs freshIndex (by simp [allIds, freshIndex]) (by simp [allIds, freshIndex])

end Idx

namespace Idx

theorem findIdxJ_decomp (p : JTask → Bool) (l : List JTask) :
    ∀ i, l.findIdx? p = some i →
      ∃ pre x suf, l = pre ++ x :: suf ∧ pre.length = i ∧ p x = true ∧
        ∀ u ∈ pre, p u = false := by
  induction l with
  | nil => intro i h; simp at h
  | cons x xs ih =>
    intro i h
    rw [List.findIdx?_cons] at h
    by_cases hp : p x = true
    · rw [if_pos hp] at h
      cases h
      exact ⟨[], x, xs, rfl, rfl, hp, by simp⟩
    · rw [if_neg hp] at h
      rw [List.findIdx?_succ] at h
      rcases Option.map_eq_some'.mp h with ⟨j, hj, hji⟩
      rcases ih j hj with ⟨pre, y, suf, hdec, hlen, hy, hpre⟩
      refine ⟨x :: pre, y, suf, by rw [hdec]; rfl, by simp [hlen, hji], hy, ?_⟩
      intro u hu
      rcases List.mem_cons.mp hu with rfl | hu
      · simpa using hp
      · exact hpre u hu

theorem eraseIdx_at_split (pre suf : List JTask) (x : JTask) :
    (pre ++ x :: suf).eraseIdx pre.length = pre ++ suf := by
  induction pre with
  | nil => rfl
  | cons y ys ih => simp [List.eraseIdx_cons_succ, ih]

theorem getD_at_split (pre suf : List JTask) (x d : JTask) :
    (pre ++ x :: suf).getD pre.length d = x := by
  induction pre with
  | nil => rfl
  | cons y ys ih => simpa using ih

/-- C9: a successful `archiveTask` moves exactly one task: the first active
task with the given id (which was `completed`) is removed from `activeTasks`
and appended, stamped with the archive timestamp, to `archivedTasks`; every
other active entry, all pre-existing archived entries, and `lastTaskId` are
unchanged. -/
theorem archive_task_moves_exactly_one (idx : TaskIndex) (taskId : Nat)
    (now : String) (tr : JTask) (idx' : TaskIndex)
    (h : archiveTask idx taskId now = (.ok tr, idx')) :
    ∃ pre suf task, idx.activeTasks = pre ++ task :: suf ∧
      (∀ u ∈ pre, u.id ≠ taskId) ∧ task.id = taskId ∧ task.status = "completed" ∧
      tr = { task with archivedAt := some now } ∧
      idx'.activeTasks = pre ++ suf ∧
      idx'.archivedTasks = idx.archivedTasks ++ [tr] ∧
      idx'.lastTaskId = idx.lastTaskId := by
  unfold archiveTask at h
  cases hfind : idx.activeTasks.findIdx? (fun t => t.id = taskId) with
  | none => rw [hfind] at h; cases h
  | some i =>
    rw [hfind] at h
    dsimp only at h
    by_cases hst : (idx.activeTasks.getD i dfltTask).status ≠ "completed"
    · rw [if_pos hst] at h; cases h
    · rw [if_neg hst] at h
      rcases findIdxJ_decomp _ _ i hfind with ⟨pre, task, suf, hdec, hlen, hp, hpre⟩
      have hget : idx.activeTasks.getD i dfltTask = task := by
        rw [hdec, ← hlen]; exact getD_at_split pre suf task dfltTask
      have herase : idx.activeTasks.eraseIdx i = pre ++ suf := by
        rw [hdec, ← hlen]; exact eraseIdx_at_split pre suf task
      rw [hget] at h hst
      cases h
      refine ⟨pre, suf, task, hdec, ?_, by simpa using hp, by simpa using hst, rfl,
        by simpa using herase, rfl, rfl⟩
      intro u hu
      have := hpre u hu
      simpa using this

theorem archive_task_moves_exactly_one_witness :
    ∃ pre suf task,
      ({ lastTaskId := 2,
         activeTasks :=
           [{ id := 1, name := "a", status := "pending", priority := "low" },
            { id := 2, name := "b", status := "completed", priority := "high" }],
         archivedTasks := [] } : TaskIndex).activeTasks = pre ++ task :: suf ∧
      (∀ u ∈ pre, u.id ≠ 2) ∧ task.id = 2 ∧ task.status = "completed" ∧
      ({ id := 2, name := "b", status := "completed", priority := "high",
         archivedAt := some "now" } : JTask) = { task with archivedAt := some "now" } ∧
      ((archiveTask
          { lastTaskId := 2,
            activeTasks :=
              [{ id := 1, name := "a", status := "pending", priority := "low" },
               { id := 2, name := "b", status := "completed", priority := "high" }],
            archivedTasks := [] } 2 "now").2).activeTasks = pre ++ suf ∧
      ((archiveTask
          { lastTaskId := 2,
            activeTasks :=
              [{ id := 1, name := "a", status := "pending", priority := "low" },
               { id := 2, name := "b", status := "completed", priority := "high" }],
            archivedTasks := [] } 2 "now").2).archivedTasks =
        ({ lastTaskId := 2,
           activeTasks :=
             [{ id := 1, name := "a", status := "pending", priority := "low" },
              { id := 2, name := "b", status := "completed", priority := "high" }],
           archivedTasks := [] } : TaskIndex).archivedTasks ++
          [{ id := 2, name := "b", status := "completed", priority := "high",
             archivedAt := some "now" }] ∧
      ((archiveTask
          { lastTaskId := 2,
            activeTasks :=
              [{ id := 1, name := "a", status := "pending", priority := "low" },
               { id := 2, name := "b", status := "completed", priority := "high" }],
            archivedTasks := [] } 2 "now").2).lastTaskId = 2 :=
  archive_task_moves_exactly_one _ 2 "now" _ _ (by rfl)

end Idx

namespace Idx

/-- C10: an active task whose status is `completed` but that has not been
archived is counted in neither `summary.totalActive` (which counts only
active tasks with status other than `completed`) nor `summary.completed`
(which counts only `archivedTasks`); in the reachable state obtained by
creating one task and setting its status to `completed`,
`totalActive + completed = 0` while one task was created
(`lastTaskId = 1`), so the sum undercounts the tasks ever created. -/
theorem completed_unarchived_counted_nowhere :
    (∀ (idx : TaskIndex) (t : JTask), t ∈ idx.activeTasks → t.status = "completed" →
      t ∉ getActiveTasks idx ∧
      t ∉ (generateReport idx).pendingTasks ∧
      t ∉ (generateReport idx).inProgressTasks ∧
      (generateReport idx).summary.totalActive = (getActiveTasks idx).length ∧
      (generateReport idx).summary.completed = idx.archivedTasks.length) ∧
    ((generateReport
        (updateTaskStatus ((createTask freshIndex "a" "medium").2) 1 "completed").2).summary.totalActive +
      (generateReport
        (updateTaskStatus ((createTask freshIndex "a" "medium").2) 1 "completed").2).summary.completed <
      ((updateTaskStatus ((createTask freshIndex "a" "medium").2) 1 "completed").2).lastTaskId) := by
  constructor
  · intro idx t _ hst
    have hnot : t ∉ getActiveTasks idx := by
      intro hmem
      have := (List.mem_filter.mp hmem).2
      simp [hst] at this
    refine ⟨hnot, ?_, ?_, rfl, rfl⟩
    · intro hmem
      exact hnot (List.mem_filter.mp hmem).1
    · intro hmem
      exact hnot (List.mem_filter.mp hmem).1
  · decide

theorem completed_unarchived_counted_nowhere_witness :
    ({ id := 1, name := "a", filename := "task_001_a.md", status := "completed",
       priority := "medium" } : JTask) ∉
      getActiveTasks
        (updateTaskStatus ((createTask freshIndex "a" "medium").2) 1 "completed").2 ∧
    (generateReport
        (updateTaskStatus ((createTask freshIndex "a" "medium").2) 1 "completed").2).summary.completed =
      ((updateTaskStatus ((createTask freshIndex "a" "medium").2) 1 "completed").2).archivedTasks.length :=
  ⟨(completed_unarchived_counted_nowhere.1
      (updateTaskStatus ((createTask freshIndex "a" "medium").2) 1 "completed").2
      { id := 1, name := "a", filename := "task_001_a.md", status := "completed",
        priority := "medium" } (by decide) (by decide)).1,
    (completed_unarchived_counted_nowhere.1
      (updateTaskStatus ((createTask freshIndex "a" "medium").2) 1 "completed").2
      { id := 1, name := "a", filename := "task_001_a.md", status := "completed",
        priority := "medium" } (by decide) (by decide)).2.2.2.2⟩

end Idx

namespace Sched

theorem goodLayers_nil : GoodLayers [] := by
  intro p L s hsplit
  exact absurd hsplit.symm (List.append_ne_nil_of_right_ne_nil p (by simp))

theorem goodLayers_snoc {acc : List (List TaskNode)} {ready : List TaskNode}
    (hG : GoodLayers acc)
    (hready : ∀ t ∈ ready, ∀ d ∈ t.depends_on, d ∈ idsOf acc.flatten) :
    GoodLayers (acc ++ [ready]) := by
  intro p L s hsplit
  rcases List.append_eq_append_iff.mp hsplit with ⟨a', hp, hr⟩ | ⟨c', ha, hd⟩
  · cases a' with
    | cons x xs =>
      exfalso
      simpa using congrArg List.length hr
    | nil =>
      rw [List.nil_append] at hr
      injection hr with hL hs
      subst hL
      subst hs
      rw [List.append_nil] at hp
      subst hp
      exact hready
  · cases c' with
    | nil =>
      rw [List.nil_append] at hd
      injection hd with hL hs
      subst hL
      subst hs
      rw [List.append_nil] at ha
      subst ha
      exact hready
    | cons x xs =>
      rw [List.cons_append] at hd
      injection hd with hL hs
      subst hL
      subst hs
      exact hG _ _ _ ha

theorem layersGo_spec (fuel : Nat) :
    ∀ (remaining : List TaskNode) (acc : List (List TaskNode)),
      GoodLayers acc →
      remaining.length ≤ fuel →
      GoodLayers (layersGo fuel remaining (idsOf acc.flatten) acc).1 ∧
      List.Perm (acc.flatten ++ remaining)
        ((layersGo fuel remaining (idsOf acc.flatten) acc).1.flatten ++
          (layersGo fuel remaining (idsOf acc.flatten) acc).2) ∧
      (∀ u ∈ (layersGo fuel remaining (idsOf acc.flatten) acc).2,
        isReadyB (idsOf ((layersGo fuel remaining (idsOf acc.flatten) acc).1.flatten)) u =
          false) := by
  induction fuel with
  | zero =>
    intro remaining acc hG hlen
    have hrem : remaining = [] := List.length_eq_zero.mp (Nat.le_zero.mp hlen)
    subst hrem
    simp only [layersGo]
    exact ⟨hG, by simp, by simp⟩
  | succ fuel ih =>
    intro remaining acc hG hlen
    by_cases hrdy : (remaining.filter (isReadyB (idsOf acc.flatten))).isEmpty = true
    · simp only [layersGo, hrdy, if_pos]
      have hnil := List.isEmpty_iff.mp hrdy
      have hfalse : ∀ u ∈ remaining, isReadyB (idsOf acc.flatten) u = false := by
        intro u hu
        have := List.filter_eq_nil_iff.mp hnil u hu
        simpa using this
      exact ⟨hG, List.Perm.refl _, hfalse⟩
    · have hready_ne : remaining.filter (isReadyB (idsOf acc.flatten)) ≠ [] := by
        intro hc
        rw [hc] at hrdy
        simp at hrdy
      simp only [layersGo, hrdy, if_neg, Bool.false_eq_true, not_false_iff]
      have hperm_split :
          List.Perm (remaining.filter (isReadyB (idsOf acc.flatten)) ++
            remaining.filter (fun t => !(isReadyB (idsOf acc.flatten) t))) remaining :=
        List.filter_append_perm _ remaining
      have hlen' :
          (remaining.filter (fun t => !(isReadyB (idsOf acc.flatten) t))).length ≤ fuel := by
        have hlens := hperm_split.length_eq
        rw [List.length_append] at hlens
        have hpos : 1 ≤ (remaining.filter (isReadyB (idsOf acc.flatten))).length := by
          cases hready : remaining.filter (isReadyB (idsOf acc.flatten)) with
          | nil => exact absurd hready hready_ne
          | cons x xs => simp
        omega
      have hG' : GoodLayers (acc ++ [remaining.filter (isReadyB (idsOf acc.flatten))]) := by
        apply goodLayers_snoc hG
        intro t ht d hd
        have hmem := List.mem_filter.mp ht
        have hr := hmem.2
        unfold isReadyB at hr
        rw [List.all_eq_true] at hr
        have := hr d hd
        simpa using this
      have hids : idsOf acc.flatten ++ idsOf (remaining.filter (isReadyB (idsOf acc.flatten))) =
          idsOf ((acc ++ [remaining.filter (isReadyB (idsOf acc.flatten))]).flatten) := by
        simp [idsOf]
      have hcall := ih (remaining.filter (fun t => !(isReadyB (idsOf acc.flatten) t)))
        (acc ++ [remaining.filter (isReadyB (idsOf acc.flatten))]) hG' hlen'
      rw [← hids] at hcall
      refine ⟨hcall.1, ?_, hcall.2.2⟩
      have h1 : List.Perm (acc.flatten ++ remaining)
          ((acc ++ [remaining.filter (isReadyB (idsOf acc.flatten))]).flatten ++
            remaining.filter (fun t => !(isReadyB (idsOf acc.flatten) t))) := by
        rw [List.flatten_append]
        simp only [List.flatten_cons, List.flatten_nil, List.append_nil]
        rw [List.append_assoc]
        exact List.Perm.append_left _ hperm_split.symm
      exact h1.trans hcall.2.1

theorem computeLayers_spec (tasks : List TaskNode) :
    GoodLayers (computeLayers tasks).1 ∧
    List.Perm tasks ((computeLayers tasks).1.flatten ++ (computeLayers tasks).2) ∧
    (∀ u ∈ (computeLayers tasks).2,
      isReadyB (idsOf ((computeLayers tasks).1.flatten)) u = false) := by
  have h := layersGo_spec tasks.length tasks [] goodLayers_nil (Nat.le_refl _)
  simp only [List.flatten_nil, List.nil_append] at h
  exact ⟨h.1, h.2.1, h.2.2⟩

end Sched

namespace Sched

theorem findIdx_split (pred : List TaskNode → Bool) (u : List (List TaskNode))
    (M : List TaskNode) (v : List (List TaskNode)) (hM : pred M = true)
    (hu : ∀ N ∈ u, pred N = false) :
    (u ++ M :: v).findIdx pred = u.length := by
  induction u with
  | nil => simp [List.findIdx_cons, hM]
  | cons N u' ih =>
    have hN : pred N = false := hu N (List.mem_cons_self N u')
    rw [List.cons_append, List.findIdx_cons, hN]
    simp only [cond_false]
    rw [ih (fun N' hN' => hu N' (List.mem_cons_of_mem N hN'))]
    rfl

theorem not_mem_earlier {ls u : List (List TaskNode)} {M : List TaskNode}
    {v : List (List TaskNode)} {b : String}
    (hnd : (idsOf ls.flatten).Nodup) (hsplit : ls = u ++ M :: v)
    (hb : b ∈ idsOf M) : ∀ N ∈ u, b ∉ idsOf N := by
  intro N hN hbN
  have hflat : ls.flatten = u.flatten ++ (M ++ v.flatten) := by
    rw [hsplit]
    simp
  rw [hflat] at hnd
  unfold idsOf at hnd
  rw [List.map_append] at hnd
  have hdisj := List.disjoint_of_nodup_append hnd
  have h1 : b ∈ List.map (·.id) u.flatten := by
    rcases List.mem_map.mp hbN with ⟨w, hw, hwid⟩
    exact List.mem_map.mpr ⟨w, List.mem_flatten.mpr ⟨N, hN, hw⟩, hwid⟩
  have h2 : b ∈ List.map (·.id) (M ++ v.flatten) := by
    rcases List.mem_map.mp hb with ⟨w, hw, hwid⟩
    exact List.mem_map.mpr ⟨w, List.mem_append_left _ hw, hwid⟩
  exact hdisj h1 h2

theorem rank_eq {ls u : List (List TaskNode)} {M : List TaskNode}
    {v : List (List TaskNode)} {b : String}
    (hnd : (idsOf ls.flatten).Nodup) (hsplit : ls = u ++ M :: v)
    (hb : b ∈ idsOf M) : rankOf ls b = u.length := by
  unfold rankOf
  rw [hsplit]
  apply findIdx_split
  · rcases List.mem_map.mp hb with ⟨w, hw, hwid⟩
    rw [List.any_eq_true]
    exact ⟨w, hw, by simp [hwid]⟩
  · intro N hN
    have hnot := not_mem_earlier hnd hsplit hb N hN
    rw [← Bool.not_eq_true, List.any_eq_true]
    rintro ⟨w, hw, hwid⟩
    exact hnot (List.mem_map.mpr ⟨w, hw, by simpa using hwid⟩)

theorem rank_lt {ls : List (List TaskNode)} {a b : String}
    (hnd : (idsOf ls.flatten).Nodup) (hG : GoodLayers ls)
    (hstep : depStepB ls.flatten a b = true) : rankOf ls b < rankOf ls a := by
  unfold depStepB at hstep
  rw [List.any_eq_true] at hstep
  rcases hstep with ⟨t, ht, hprop⟩
  rw [Bool.and_eq_true] at hprop
  have hta : t.id = a := by simpa using hprop.1
  have htb : b ∈ t.depends_on := by simpa using hprop.2
  rcases List.mem_flatten.mp ht with ⟨L, hL, htL⟩
  rcases List.append_of_mem hL with ⟨u, v, hsplit⟩
  have hbu : b ∈ idsOf u.flatten := hG u L v hsplit t htL b htb
  rcases List.mem_map.mp hbu with ⟨w, hwu, hwid⟩
  rcases List.mem_flatten.mp hwu with ⟨L2, hL2, hwL2⟩
  rcases List.append_of_mem hL2 with ⟨u2, v2, hsplit2⟩
  have hsplit' : ls = u2 ++ L2 :: (v2 ++ L :: v) := by
    rw [hsplit, hsplit2]
    simp
  have hrb : rankOf ls b = u2.length :=
    rank_eq hnd hsplit' (List.mem_map.mpr ⟨w, hwL2, hwid⟩)
  have hra : rankOf ls a = u.length :=
    rank_eq hnd hsplit (List.mem_map.mpr ⟨t, htL, hta⟩)
  have hulen : u.length = u2.length + v2.length + 1 := by
    rw [hsplit2]
    simp
    omega
  omega

end Sched

namespace Sched

theorem chain_getLast_le {R : String → String → Prop} {f : String → Nat} :
    ∀ (c : List String), List.Chain' R c → (∀ x y, R x y → f y < f x) →
      ∀ (hne : c ≠ []), f (c.getLast hne) ≤ f (c.head hne) := by
  intro c
  induction c with
  | nil => intro _ _ hne; exact absurd rfl hne
  | cons x xs ih =>
    intro hchain hmono hne
    cases xs with
    | nil => simp
    | cons y ys =>
      rw [List.chain'_cons] at hchain
      have hxy := hchain.1
      have htail := ih hchain.2 hmono (by simp)
      rw [List.getLast_cons (by simp)]
      have : f ((y :: ys).getLast (by simp)) ≤ f y := htail
      have hlt := hmono x y hxy
      simp only [List.head_cons] at this ⊢
      omega

theorem no_cycle_of_good {ls : List (List TaskNode)}
    (hnd : (idsOf ls.flatten).Nodup) (hG : GoodLayers ls) :
    ∀ c, ¬ IsDepCycle ls.flatten c := by
  rintro c ⟨hne, hchain, hwrap⟩
  have hmono : ∀ x y, depStepB ls.flatten x y = true → rankOf ls y < rankOf ls x :=
    fun x y h => rank_lt hnd hG h
  have hle := chain_getLast_le c hchain hmono hne
  have hhead : c.headD "" = c.head hne := by
    cases c with
    | nil => exact absurd rfl hne
    | cons x xs => rfl
  have hlast : c.getLastD "" = c.getLast hne := by
    cases c with
    | nil => exact absurd rfl hne
    | cons x xs => simp [List.getLastD_eq_getLast?, List.getLast?_eq_getLast]
  rw [hhead, hlast] at hwrap
  have := hmono _ _ hwrap
  omega

theorem depStepB_perm {l l' : List TaskNode} (h : List.Perm l l') (a b : String) :
    depStepB l a b = depStepB l' a b := by
  unfold depStepB
  cases hx : l'.any (fun t => t.id = a && t.depends_on.contains b) with
  | true =>
    rw [List.any_eq_true] at hx ⊢
    rcases hx with ⟨t, ht, hp⟩
    exact ⟨t, h.mem_iff.mpr ht, hp⟩
  | false =>
    rw [← Bool.not_eq_true] at hx ⊢
    rw [List.any_eq_true] at hx ⊢
    rintro ⟨t, ht, hp⟩
    exact hx ⟨t, h.mem_iff.mp ht, hp⟩

theorem isDepCycle_perm {l l' : List TaskNode} (h : List.Perm l l') (c : List String) :
    IsDepCycle l c → IsDepCycle l' c := by
  rintro ⟨hne, hchain, hwrap⟩
  refine ⟨hne, ?_, ?_⟩
  · exact hchain.imp (fun {x y} hxy => by rw [← depStepB_perm h]; exact hxy)
  · rw [← depStepB_perm h]
    exact hwrap

end Sched

namespace Sched

theorem stepDep_total {tasks flat lo : List TaskNode}
    (hperm : List.Perm tasks (flat ++ lo))
    (hknown : depsKnownB tasks = true)
    (hstuck : ∀ u ∈ lo, isReadyB (idsOf flat) u = false) :
    ∀ a ∈ idsOf lo, ∃ d, stepDep lo a = some d ∧ d ∈ idsOf lo ∧
      depStepB tasks a d = true := by
  intro a ha
  rcases List.mem_map.mp ha with ⟨w, hw, hwid⟩
  have hsome : (lo.find? (fun t => t.id = a)).isSome := by
    rw [List.find?_isSome]
    exact ⟨w, hw, by simp [hwid]⟩
  rcases Option.isSome_iff_exists.mp hsome with ⟨t, hfind⟩
  have htid : t.id = a := by simpa using List.find?_some hfind
  have htlo : t ∈ lo := List.mem_of_find?_eq_some hfind
  have httasks : t ∈ tasks := hperm.mem_iff.mpr (List.mem_append_right _ htlo)
  have hnotready := hstuck t htlo
  unfold isReadyB at hnotready
  rw [List.all_eq_false] at hnotready
  rcases hnotready with ⟨d0, hd0, hd0n⟩
  have hd0known : d0 ∈ idsOf tasks := by
    unfold depsKnownB at hknown
    rw [List.all_eq_true] at hknown
    have := hknown t httasks
    rw [List.all_eq_true] at this
    have := this d0 hd0
    simpa using this
  have hd0lo : d0 ∈ idsOf lo := by
    have hmapperm : List.Perm (idsOf tasks) (idsOf flat ++ idsOf lo) := by
      have := hperm.map (·.id)
      simpa [idsOf] using this
    have := hmapperm.mem_iff.mp hd0known
    rcases List.mem_append.mp this with hl | hr
    · exact absurd (by simpa using hl : (idsOf flat).contains d0 = true)
        (by simpa using hd0n)
    · exact hr
  have hfsome : (t.depends_on.find? (fun d => (idsOf lo).contains d)).isSome := by
    rw [List.find?_isSome]
    exact ⟨d0, hd0, by simpa using hd0lo⟩
  rcases Option.isSome_iff_exists.mp hfsome with ⟨d, hdfind⟩
  have hdlo : d ∈ idsOf lo := by simpa using List.find?_some hdfind
  have hddep : d ∈ t.depends_on := List.mem_of_find?_eq_some hdfind
  refine ⟨d, ?_, hdlo, ?_⟩
  · unfold stepDep
    rw [hfind]
    dsimp only
    exact hdfind
  · unfold depStepB
    rw [List.any_eq_true]
    exact ⟨t, httasks, by simp [htid, hddep]⟩

theorem findCycleGo_on_cycle {tasks lo : List TaskNode}
    (H : ∀ a ∈ idsOf lo, ∃ d, stepDep lo a = some d ∧ d ∈ idsOf lo ∧
      depStepB tasks a d = true) :
    ∀ (fuel : Nat) (cur : String) (visited : List String),
      cur ∈ idsOf lo →
      visited.Nodup →
      (∀ v ∈ visited, v ∈ idsOf lo) →
      List.Chain' (fun a b => depStepB tasks a b = true) (visited ++ [cur]) →
      (idsOf lo).length + 1 ≤ fuel + visited.length →
      OnCycle tasks (findCycleGo lo fuel cur visited) := by
  intro fuel
  induction fuel with
  | zero =>
    intro cur visited hcur hvnd hvlo hchain hbound
    exfalso
    have hsub : visited ⊆ idsOf lo := hvlo
    have := (List.subperm_of_subset hvnd hsub).length_le
    omega
  | succ fuel ih =>
    intro cur visited hcur hvnd hvlo hchain hbound
    by_cases hv : visited.contains cur = true
    · have hcv : cur ∈ visited := by simpa using hv
      rcases List.append_of_mem hcv with ⟨p, q, hvis⟩
      have hres : findCycleGo lo (fuel + 1) cur visited = cur := by
        conv_lhs => unfold findCycleGo
        rw [if_pos hv]
      rw [hres]
      have hchain2 : List.Chain' (fun a b => depStepB tasks a b = true)
          ((cur :: q) ++ [cur]) := by
        have : visited ++ [cur] = p ++ ((cur :: q) ++ [cur]) := by
          rw [hvis]
          simp
        rw [this] at hchain
        exact hchain.right_of_append
      rw [List.chain'_append] at hchain2
      refine ⟨cur :: q, ⟨by simp, hchain2.1, ?_⟩, List.mem_cons_self _ _⟩
      · have hwrap := hchain2.2.2
        have hlast : (cur :: q).getLast? = some ((cur :: q).getLast (by simp)) :=
          List.getLast?_eq_getLast _ _
        have := hwrap _ hlast cur rfl
        have hgd : (cur :: q).getLastD "" = (cur :: q).getLast (by simp) := by
          rw [List.getLastD_eq_getLast?, hlast]
          rfl
        rw [hgd]
        simpa using this
    · rcases H cur hcur with ⟨d, hstep, hdlo, hdep⟩
      have hres : findCycleGo lo (fuel + 1) cur visited =
          findCycleGo lo fuel d (visited ++ [cur]) := by
        conv_lhs => unfold findCycleGo
        rw [if_neg hv, hstep]
      rw [hres]
      apply ih d (visited ++ [cur]) hdlo
      · have hcv : cur ∉ visited := by simpa using hv
        simp [List.nodup_append, hvnd, hcv]
      · intro v hvm
        rcases List.mem_append.mp hvm with h1 | h2
        · exact hvlo v h1
        · rw [List.mem_singleton.mp h2]
          exact hcur
      · rw [List.chain'_append]
        refine ⟨hchain, List.chain'_singleton d, ?_⟩
        intro x hx y hy
        rw [List.getLast?_concat] at hx
        cases hx
        cases hy
        exact hdep
      · rw [List.length_append, List.length_cons]
        omega

end Sched

namespace Sched

theorem firstDup_eq_none {l : List String} (h : l.Nodup) : firstDup l = none := by
  induction l with
  | nil => rfl
  | cons x xs ih =>
    rw [List.nodup_cons] at h
    unfold firstDup
    rw [if_neg (by simpa using h.1)]
    exact ih h.2

theorem firstUnknown_eq_none {tasks : List TaskNode} (h : depsKnownB tasks = true) :
    firstUnknown tasks = none := by
  unfold firstUnknown
  rw [List.findSome?_eq_none_iff]
  intro t ht
  rw [List.find?_eq_none]
  intro d hd
  unfold depsKnownB at h
  rw [List.all_eq_true] at h
  have := h t ht
  rw [List.all_eq_true] at this
  have := this d hd
  simpa using this

theorem idsOf_perm {l l' : List TaskNode} (h : List.Perm l l') :
    List.Perm (idsOf l) (idsOf l') := by
  unfold idsOf
  exact h.map _

theorem validate_cyclic {tasks : List TaskNode}
    (hnd : (idsOf tasks).Nodup) (hknown : depsKnownB tasks = true)
    (hcyc : HasCycle tasks) :
    validate tasks = .error (.circularDependency (findCycleNode (computeLayers tasks).2)) ∧
      OnCycle tasks (findCycleNode (computeLayers tasks).2) := by
  obtain ⟨hG, hperm, hstuck⟩ := computeLayers_spec tasks
  have hlo_ne : (computeLayers tasks).2 ≠ [] := by
    intro hlo
    rw [hlo, List.append_nil] at hperm
    rcases hcyc with ⟨c, hc⟩
    have hc' := isDepCycle_perm hperm c hc
    have hnd' : (idsOf (computeLayers tasks).1.flatten).Nodup :=
      (idsOf_perm hperm).nodup hnd
    exact no_cycle_of_good hnd' hG c hc'
  have hval : validate tasks =
      .error (.circularDependency (findCycleNode (computeLayers tasks).2)) := by
    unfold validate
    rw [firstDup_eq_none hnd, firstUnknown_eq_none hknown]
    rw [if_neg (fun hc => hlo_ne (List.isEmpty_iff.mp hc))]
  refine ⟨hval, ?_⟩
  have H := stepDep_total hperm hknown hstuck
  cases hlo : (computeLayers tasks).2 with
  | nil => exact absurd hlo hlo_ne
  | cons t rest =>
    rw [hlo] at H
    have hstart : t.id ∈ idsOf (t :: rest) := by
      simp [idsOf]
    clear hval
    have hres := findCycleGo_on_cycle H ((t :: rest).length + 1) t.id [] hstart
      List.nodup_nil (by simp) (List.chain'_singleton t.id)
      (by simp [idsOf])
    exact hres

end Sched

namespace Sched

/-- C2 counterexample: a task set containing a cycle (X ↔ Y) but also an
unresolvable dependency ("ghost") fails validation with
`UnknownDependencyError`, not `CircularDependencyError`, so the claim is
false for task sets that are not otherwise well-formed. -/
theorem cycle_validation_error_counterexample :
    HasCycle [{ id := "W", depends_on := ["ghost"] },
      { id := "X", depends_on := ["Y"] }, { id := "Y", depends_on := ["X"] }] ∧
    validate [{ id := "W", depends_on := ["ghost"] },
      { id := "X", depends_on := ["Y"] }, { id := "Y", depends_on := ["X"] }] =
      .error (.unknownDependency "ghost") :=
  ⟨⟨["X", "Y"], by decide,
    by rw [List.chain'_cons]; exact ⟨by decide, List.chain'_singleton _⟩,
    by decide⟩, by rfl⟩

/-- C2 (amended): for every task set with pairwise-distinct ids and fully
resolvable dependencies whose dependency relation contains a cycle,
validation fails with `CircularDependencyError` naming a task on the cycle;
`plan` and `initialize` fail for every batch size, so no batch is produced;
and inserting the task that closes such a cycle into a manager fails with
`CircularDependencyError` leaving the manager unchanged. -/
theorem cycle_validation_fails_circular (tasks : List TaskNode)
    (hnd : (idsOf tasks).Nodup) (hknown : depsKnownB tasks = true)
    (hcyc : HasCycle tasks) :
    (∃ c, validate tasks = .error (.circularDependency c) ∧ OnCycle tasks c) ∧
    (∀ k, ∃ e, plan tasks k = .error e) ∧
    (∀ k, ∃ e, initManager k tasks = .error e) ∧
    (∀ (m : Manager) (t : TaskNode),
      m.tasks.map (·.node) ++ [t] = tasks →
      (m.tasks.any (fun u => u.node.id = t.id)) = false →
      ∃ c, insert_task m t = (.error (.circularDependency c), m) ∧ OnCycle tasks c) := by
  obtain ⟨hval, honc⟩ := validate_cyclic hnd hknown hcyc
  refine ⟨⟨_, hval, honc⟩, ?_, ?_, ?_⟩
  · intro k
    unfold plan
    by_cases hk : k < 1
    · refine ⟨.invalidConfiguration "max_batch_size", ?_⟩
      rw [if_pos hk]
    · refine ⟨.circularDependency (findCycleNode (computeLayers tasks).2), ?_⟩
      rw [if_neg hk, hval]
  · intro k
    unfold initManager
    rw [hval]
    exact ⟨_, rfl⟩
  · intro m t heq hdup
    unfold insert_task
    rw [if_neg (by rw [hdup]; exact Bool.false_ne_true), heq, hval]
    exact ⟨_, rfl, honc⟩

theorem cycle_validation_fails_circular_witness :
    (∃ c, validate [{ id := "A", depends_on := ["A"] }] =
        .error (.circularDependency c) ∧
      OnCycle [{ id := "A", depends_on := ["A"] }] c) ∧
    (∀ k, ∃ e, plan [{ id := "A", depends_on := ["A"] }] k = .error e) ∧
    (∀ k, ∃ e, initManager k [{ id := "A", depends_on := ["A"] }] = .error e) ∧
    (∀ (m : Manager) (t : TaskNode),
      m.tasks.map (·.node) ++ [t] = [{ id := "A", depends_on := ["A"] }] →
      (m.tasks.any (fun u => u.node.id = t.id)) = false →
      ∃ c, insert_task m t = (.error (.circularDependency c), m) ∧
        OnCycle [{ id := "A", depends_on := ["A"] }] c) :=
  cycle_validation_fails_circular [{ id := "A", depends_on := ["A"] }]
    (by decide) (by decide) ⟨["A"], by decide, List.chain'_singleton _, by decide⟩

end Sched

namespace Sched

theorem insertSorted_perm (le : TaskNode → TaskNode → Bool) (x : TaskNode) :
    ∀ l, List.Perm (insertSorted le x l) (x :: l) := by
  intro l
  induction l with
  | nil => exact List.Perm.refl _
  | cons y ys ih =>
    unfold insertSorted
    by_cases h : le x y = true
    · rw [if_pos h]
    · rw [if_neg h]
      exact (ih.cons y).trans (List.Perm.swap x y ys)

theorem sortByLE_perm (le : TaskNode → TaskNode → Bool) :
    ∀ l, List.Perm (sortByLE le l) l := by
  intro l
  induction l with
  | nil => exact List.Perm.refl _
  | cons x xs ih =>
    unfold sortByLE
    exact (insertSorted_perm le x (sortByLE le xs)).trans (ih.cons x)

theorem sortTier_perm (l : List TaskNode) : List.Perm (sortTier l) l :=
  sortByLE_perm tierLE l

theorem chunkGo_flatten (k : Nat) :
    ∀ (fuel : Nat) (l : List TaskNode), l.length ≤ fuel →
      (chunkGo k fuel l).flatten = l := by
  intro fuel
  induction fuel with
  | zero =>
    intro l hl
    have : l = [] := List.length_eq_zero.mp (Nat.le_zero.mp hl)
    subst this
    rfl
  | succ fuel ih =>
    intro l hl
    cases l with
    | nil => rfl
    | cons x xs =>
      simp only [chunkGo, List.flatten_cons]
      rw [ih (xs.drop (k - 1)) (by rw [List.length_drop]; simp at hl; omega)]
      rw [List.cons_append, List.take_append_drop]

theorem chunkList_flatten (k : Nat) (l : List TaskNode) :
    (chunkList k l).flatten = l :=
  chunkGo_flatten k l.length l (Nat.le_refl _)

theorem flatten_split {α : Type} (gs : List (List α)) :
    ∀ (pre : List α) (b : α) (suf : List α), gs.flatten = pre ++ b :: suf →
      ∃ gpre g gsuf pre2 suf2, gs = gpre ++ g :: gsuf ∧ g = pre2 ++ b :: suf2 ∧
        pre = gpre.flatten ++ pre2 := by
  induction gs with
  | nil =>
    intro pre b suf h
    rw [List.flatten_nil] at h
    exact absurd h.symm (by simp)
  | cons g gs' ih =>
    intro pre b suf h
    rw [List.flatten_cons] at h
    rcases List.append_eq_append_iff.mp h with ⟨a', hpre, hflat⟩ | ⟨c', hg, hd⟩
    · rcases ih a' b suf hflat with ⟨gpre, g0, gsuf, pre2, suf2, hgs, hg0, hpre2⟩
      refine ⟨g :: gpre, g0, gsuf, pre2, suf2, by rw [hgs]; rfl, hg0, ?_⟩
      rw [hpre, hpre2, List.flatten_cons, List.append_assoc]
    · cases c' with
      | nil =>
        rw [List.append_nil] at hg
        rw [List.nil_append] at hd
        rcases ih [] b suf hd.symm with ⟨gpre, g0, gsuf, pre2, suf2, hgs, hg0, hpre2⟩
        have hnil := hpre2.symm
        rcases List.append_eq_nil.mp hnil with ⟨h1, h2⟩
        refine ⟨g :: gpre, g0, gsuf, [], suf2, by rw [hgs]; rfl, by rw [hg0, h2], ?_⟩
        rw [List.flatten_cons, h1, List.append_nil, List.append_nil, hg]
      | cons x xs =>
        injection hd with hb hsuf
        refine ⟨[], g, gs', pre, xs, rfl, ?_, by simp⟩
        rw [hg, hb]

theorem map_split {α β : Type} (f : α → β) :
    ∀ (layers : List α) (gpre : List β) (g : β) (gsuf : List β),
      layers.map f = gpre ++ g :: gsuf →
      ∃ lpre L lsuf, layers = lpre ++ L :: lsuf ∧ lpre.map f = gpre ∧ f L = g := by
  intro layers
  induction layers with
  | nil =>
    intro gpre g gsuf h
    rw [List.map_nil] at h
    exact absurd h.symm (by simp)
  | cons x xs ih =>
    intro gpre g gsuf h
    rw [List.map_cons] at h
    cases gpre with
    | nil =>
      rw [List.nil_append] at h
      injection h with h1 h2
      exact ⟨[], x, xs, rfl, rfl, h1⟩
    | cons y ys =>
      rw [List.cons_append] at h
      injection h with h1 h2
      rcases ih ys g gsuf h2 with ⟨lpre, L, lsuf, hl1, hl2, hl3⟩
      exact ⟨x :: lpre, L, lsuf, by rw [hl1]; rfl, by rw [List.map_cons, hl2, h1], hl3⟩

/-- C1: the batches produced by `plan` respect dependency order: whenever a
task appears in a batch, every id in its `depends_on` names a task in a
strictly earlier batch; and every task returned by `get_next_batch` has all
of its dependencies COMPLETED in the manager. -/
theorem plan_batches_respect_dependency_order :
    (∀ (tasks : List TaskNode) (k : Nat) (batches : List (List TaskNode)),
      plan tasks k = .ok batches →
      ∀ (pre : List (List TaskNode)) (b : List TaskNode) (suf : List (List TaskNode)),
        batches = pre ++ b :: suf → ∀ t ∈ b, ∀ d ∈ t.depends_on,
          ∃ b' ∈ pre, ∃ u ∈ b', u.id = d) ∧
    (∀ (m : Manager), ∀ t ∈ (get_next_batch m).1, ∀ d ∈ t.depends_on,
      ∃ u ∈ m.tasks, u.node.id = d ∧ u.state = .completed) := by
  constructor
  · intro tasks k batches hplan pre b suf hsplit t ht d hd
    unfold plan at hplan
    split at hplan
    · cases hplan
    · split at hplan
      · cases hplan
      · split at hplan
        · cases hplan
        · injection hplan with hb
          rw [← hb] at hsplit
          rcases flatten_split _ pre b suf hsplit with
            ⟨gpre, g, gsuf, pre2, suf2, hgs, hg, hpre⟩
          rcases map_split _ _ gpre g gsuf hgs with ⟨lpre, L, lsuf, hlay, hmap, hfL⟩
          have hbg : b ∈ g := by
            rw [hg]
            exact List.mem_append_right _ (List.mem_cons_self _ _)
          have htsort : t ∈ sortTier L := by
            rw [← chunkList_flatten k (sortTier L), hfL]
            exact List.mem_flatten.mpr ⟨b, hbg, ht⟩
          have htL : t ∈ L := (sortTier_perm L).mem_iff.mp htsort
          have hG := (computeLayers_spec tasks).1
          have hdep : d ∈ idsOf lpre.flatten := hG lpre L lsuf hlay t htL d hd
          rcases List.mem_map.mp hdep with ⟨u, hu, huid⟩
          rcases List.mem_flatten.mp hu with ⟨L', hL', huL'⟩
          have husort : u ∈ sortTier L' := (sortTier_perm L').mem_iff.mpr huL'
          have huflat : u ∈ (chunkList k (sortTier L')).flatten := by
            rw [chunkList_flatten]
            exact husort
          rcases List.mem_flatten.mp huflat with ⟨c, hc, huc⟩
          refine ⟨c, ?_, u, huc, huid⟩
          have hcg : c ∈ gpre.flatten := by
            refine List.mem_flatten.mpr ⟨chunkList k (sortTier L'), ?_, hc⟩
            rw [← hmap]
            exact List.mem_map_of_mem _ hL'
          rw [hpre]
          exact List.mem_append_left _ hcg
  · intro m t ht d hd
    unfold get_next_batch at ht
    have ht2 := List.mem_of_mem_take ht
    have ht3 := (sortTier_perm _).mem_iff.mp ht2
    rcases List.mem_map.mp ht3 with ⟨mt, hmt, hnode⟩
    have hfil := List.mem_filter.mp hmt
    have hcond := hfil.2
    rw [Bool.and_eq_true] at hcond
    have hready := hcond.2
    unfold is_ready at hready
    rw [List.all_eq_true] at hready
    rw [← hnode] at hd
    have := hready d hd
    rw [List.any_eq_true] at this
    rcases this with ⟨u, hu, hup⟩
    rw [Bool.and_eq_true] at hup
    refine ⟨u, hu, by simpa using hup.1, by simpa using hup.2⟩

end Sched

namespace Sched

theorem plan_batches_respect_dependency_order_witness :
    (∃ b' ∈ [[({ id := "A" } : TaskNode)]], ∃ u ∈ b', u.id = "A") ∧
    (∃ u ∈ ({ tasks := [⟨{ id := "A" }, .completed⟩,
          ⟨{ id := "B", depends_on := ["A"] }, .pending⟩] } : Manager).tasks,
      u.node.id = "A" ∧ u.state = .completed) :=
  ⟨plan_batches_respect_dependency_order.1
      [{ id := "A" }, { id := "B", depends_on := ["A"] }] 1
      [[{ id := "A" }], [{ id := "B", depends_on := ["A"] }]] (by rfl)
      [[{ id := "A" }]] [{ id := "B", depends_on := ["A"] }] [] rfl
      { id := "B", depends_on := ["A"] } (by decide) "A" (by decide),
    plan_batches_respect_dependency_order.2
      { tasks := [⟨{ id := "A" }, .completed⟩,
          ⟨{ id := "B", depends_on := ["A"] }, .pending⟩] }
      { id := "B", depends_on := ["A"] } (by decide) "A" (by decide)⟩

end Sched
